import Mathlib

set_option maxHeartbeats 1000000
set_option maxRecDepth 4000

/-!
Verification development for `torch/ao/ns/fx/n_shadows_utils.py` (the
"N-shadows" accuracy-debugging utilities for quantized FX graphs).

The Python source is shallowly embedded below:

* `print_n_shadows_summary` (source lines 622-688): the per-subgraph
  best-candidate selection loop, the header construction and the
  `tabulate` import fallback are modelled exactly.  Floating point mean
  values enter this function only through comparisons (`val > best_val`),
  so they are modelled as rationals, on which the comparison order agrees
  with the IEEE order of the finite floats involved.
* `_get_dedup_subgraphs` / `_order_nodes` (lines 96-196): modelled with an
  explicit store for the match lists, because `list.reverse()` reverses the
  caller's list in place.
* `create_submodule_from_subgraph` (lines 281-475): the forward walk with
  its iteration ceiling, placeholder construction (`_add_placeholder`),
  binary-function rejection and the per-node error cases, modelled with an
  explicit fuel that is proved sufficient.
-/

namespace NShadows

/-! ### Common FX graph model

An FX `Node` is identified by a natural number (distinct Python objects
have distinct ids; `is` comparisons and `node.name` lookups both go
through the id).  Arguments are either single atoms or a one-level
list/tuple of atoms, which is the shape the embedded code inspects. -/

inductive FxAtom
  | node (nid : Nat)
  | param (pid : Nat)
  | numF
  | numI
  | dtypeLit
  | other (oid : Nat)
deriving DecidableEq

inductive FxArg
  | atom (a : FxAtom)
  | listArg (xs : List FxAtom)
deriving DecidableEq

inductive FxOp
  | placeholder
  | get_attr
  | call_function
  | call_method
  | call_module
  | output
deriving DecidableEq

/-- Call targets.  The six members of `BINARY_FUNCTIONS`
(`torch.add`, `torch.Tensor.add`, `operator.add`, `torch.mul`,
`torch.Tensor.mul`, `operator.mul`, source lines 28-35) are distinguished
constructors; every other possible target is `other`. -/
inductive Target
  | torchAdd
  | tensorAdd
  | operatorAdd
  | torchMul
  | tensorMul
  | operatorMul
  | other (tid : Nat)
deriving DecidableEq

/-- `cur_node_orig.target in BINARY_FUNCTIONS` (source line 413). -/
def Target.isBinary : Target → Bool
  | .other _ => false
  | _ => true

structure FxNode where
  op : FxOp
  target : Target
  args : List FxArg
  kwargs : List (Nat × FxArg)
  users : List Nat
deriving DecidableEq

/-- The host graph: node data per node id.  (A total function; ids not in
the graph map to an inert default node.) -/
structure FxGraph where
  node : Nat → FxNode

def blankNode : FxNode :=
  { op := .placeholder, target := .other 0, args := [], kwargs := [], users := [] }

/-! ### `print_n_shadows_summary` (source lines 622-688)

The input `results_comparison` maps a subgraph name to its
`ref_node_name` and its candidate map; of each candidate the function
reads only `cmp_mean`.  Python dict iteration order is the list order
here. -/

structure SubgraphCmp where
  ref_node_name : String
  candidates : List (String × ℚ)
deriving DecidableEq

structure SummaryRow where
  subgraph_name : String
  ref_node_name : String
  best_idx : Option Nat
  means : List ℚ
deriving DecidableEq

inductive PyErr
  | tabulateUnbound
deriving DecidableEq

/-- The selection loop, source lines 668-672:

    best_val, best_candidate = -10000.0, None
    for idx, val in enumerate(mean_all_candidates):
        if val > best_val:
            best_val = val
            best_candidate = idx + 1
-/
def selectBestAux : List ℚ → ℚ → Option Nat → Nat → ℚ × Option Nat
  | [], bestVal, bestCand, _ => (bestVal, bestCand)
  | v :: rest, bestVal, bestCand, idx =>
    if bestVal < v then selectBestAux rest v (some (idx + 1)) (idx + 1)
    else selectBestAux rest bestVal bestCand (idx + 1)

def selectBest (means : List ℚ) : Option Nat :=
  (selectBestAux means (-10000) none 0).2

/-- One `data_row` (source lines 674-679):
`[subgraph_name, ref_node_name, best_candidate, *mean_all_candidates]`. -/
def buildRow (p : String × SubgraphCmp) : SummaryRow :=
  { subgraph_name := p.1
    ref_node_name := p.2.ref_node_name
    best_idx := selectBest (p.2.candidates.map (fun c => c.2))
    means := p.2.candidates.map (fun c => c.2) }

/-- Source lines 682-684: `max_candidate_idx_len` starts at `-1` and is
updated with `len(data_row[1])`; `data_row[1]` is the row's
`ref_node_name` (a string), so this is the string's length. -/
def maxCandidateIdxLen (rows : List SummaryRow) : ℤ :=
  rows.foldl (fun m r => max m (r.ref_node_name.length : ℤ)) (-1)

/-- Source line 685: `[str(x + 1) for x in range(max_candidate_idx_len)]`,
with the header strings modelled by the numbers they print. -/
def candidateHeaders (rows : List SummaryRow) : List Nat :=
  (List.range (maxCandidateIdxLen rows).toNat).map (fun x => x + 1)

structure SummaryOut where
  remediationPrinted : Bool
  result : Except PyErr (List SummaryRow × List Nat)

/-- `print_n_shadows_summary`, parameterized by whether the optional
`tabulate` library can be imported.  When the import fails the except
branch prints a remediation message (modelled by `remediationPrinted`)
and the function falls through; the final `print(tabulate(results,
headers=headers))` on line 688 then evaluates the unbound local name
`tabulate` and raises, modelled by `Except.error .tabulateUnbound`. -/
def print_n_shadows_summary (tabulateAvailable : Bool)
    (results_comparison : List (String × SubgraphCmp)) : SummaryOut :=
  let rows := results_comparison.map buildRow
  let headers := candidateHeaders rows
  { remediationPrinted := !tabulateAvailable
    result := if tabulateAvailable then .ok (rows, headers) else .error .tabulateUnbound }

/-- Modelled from the spec: "Column headers are `1..max-candidate-count`
padded across subgraphs with differing candidate counts."  The candidate
column headers the specification describes. -/
def headersPerSpec (rc : List (String × SubgraphCmp)) : List Nat :=
  (List.range (rc.foldl (fun m p => max m p.2.candidates.length) 0)).map (fun x => x + 1)

/-! Concrete inputs used for the summary claims. -/

def c1Input : List (String × SubgraphCmp) :=
  [("subgraph_0", { ref_node_name := "linear1", candidates := [("1", 50)] })]

def c5Input : List (String × SubgraphCmp) :=
  [("subgraph_0", { ref_node_name := "ab", candidates := [("1", 1), ("2", 2), ("3", 3)] })]

def c6Input : List (String × SubgraphCmp) :=
  [("subgraph_0", { ref_node_name := "linear1",
                    candidates := [("1", 50), ("2", 62), ("3", 30)] })]

/-! ### `_get_dedup_subgraphs` (source lines 96-196)

A raw match value `cur_match[1]` is a Python list whose elements are
either a `Node` or a 2-tuple of `Node`s.  The matches dict is modelled as
an insertion-ordered list of entries; because `list.reverse()` (line 193)
reverses a stored list in place, the embedding threads the store of match
lists explicitly and returns its post-call state. -/

inductive MatchElem
  | node (nid : Nat)
  | pair (a b : Nat)
deriving DecidableEq

structure MatchEntry where
  name : Nat
  shape : List MatchElem
deriving DecidableEq

/-- `prev_n not in nodes` (source line 165): only a `Node` argument can
compare equal (Python object identity) to a node of the triple. -/
def argInNodes (a : FxArg) (nodes : List Nat) : Bool :=
  match a with
  | .atom (.node m) => nodes.contains m
  | _ => false

/-- One iteration of the classification loop of `_order_nodes` (source
lines 162-170): `prev_n = n.args[0]` and `next_n = list(n.users)[0]`
(an empty `args` or `users` raises, hence `none`), then the
first/last/mid assignment.  Accumulator: `(first_node, mid_node,
last_node)`. -/
def orderStep (G : FxGraph) (nodes : List Nat)
    (acc : Option Nat × Option Nat × Option Nat) (n : Nat) :
    Option (Option Nat × Option Nat × Option Nat) :=
  match (G.node n).args.head?, (G.node n).users.head? with
  | some prev, some nxt =>
    some (if argInNodes prev nodes = false then (some n, acc.2.1, acc.2.2)
          else if nodes.contains nxt = false then (acc.1, acc.2.1, some n)
          else (acc.1, some n, acc.2.2))
  | _, _ => none

/-- `_order_nodes` (source lines 157-175): classify the three nodes,
assert all three roles are filled, assert `mid.args[0] is first_node` and
`last.args[0] is mid_node`, and return `[last_node, mid_node,
first_node]`. -/
def _order_nodes (G : FxGraph) (na nb nc : Nat) : Option (List Nat) :=
  match orderStep G [na, nb, nc] (none, none, none) na with
  | none => none
  | some s1 =>
    match orderStep G [na, nb, nc] s1 nb with
    | none => none
    | some s2 =>
      match orderStep G [na, nb, nc] s2 nc with
      | none => none
      | some s3 =>
        match s3 with
        | (some f, some m, some l) =>
          if (G.node m).args.head? = some (.atom (.node f)) ∧
              (G.node l).args.head? = some (.atom (.node m))
          then some [l, m, f] else none
        | _ => none

def seenAdd (acc : Bool × List Nat) (n : Nat) : Bool × List Nat :=
  (acc.1 || acc.2.contains n, n :: acc.2)

/-- The `was_seen` scan over an entry (source lines 111-141): every node
of the match value is added to `seen_nodes`, and `was_seen` is raised
when any of them was already present. -/
def markSeen : List MatchElem → Bool × List Nat → Bool × List Nat
  | [], acc => acc
  | .node n :: rest, acc => markSeen rest (seenAdd acc n)
  | .pair a b :: rest, acc => markSeen rest (seenAdd (seenAdd acc a) b)

/-- The node ids of a match value, in scan order. -/
def shapeNodes : List MatchElem → List Nat
  | [] => []
  | .node n :: rest => n :: shapeNodes rest
  | .pair a b :: rest => a :: b :: shapeNodes rest

/-- The accept branch for one unseen entry (source lines 146-194):
returns the list recorded in `subgraphs_dedup` together with the list now
stored in the entry.  The singleton and plain-pair shapes alias the
stored list, which `list.reverse()` (line 193) reverses in place; the
nested-pair shapes build a fresh list via `_order_nodes`.  Shapes of any
other length fail the `len == 2` assertion, and a nested pair alongside
another pair fails inside `_order_nodes` (a tuple has no `.args`). -/
def processEntry (G : FxGraph) (shape : List MatchElem) :
    Option (List MatchElem × List MatchElem) :=
  match shape with
  | [e] => some ([e], [e])
  | [MatchElem.node a, MatchElem.node b] =>
    some ([MatchElem.node b, MatchElem.node a], [MatchElem.node b, MatchElem.node a])
  | [MatchElem.pair a b, MatchElem.node c] =>
    match _order_nodes G a b c with
    | some l => some (l.reverse.map MatchElem.node, [MatchElem.pair a b, MatchElem.node c])
    | none => none
  | [MatchElem.node c, MatchElem.pair a b] =>
    match _order_nodes G a b c with
    | some l => some (l.reverse.map MatchElem.node, [MatchElem.node c, MatchElem.pair a b])
    | none => none
  | _ => none

/-- The main loop of `_get_dedup_subgraphs` over the reversed items
(source lines 110-194), threading the seen set, the output accumulator
(consed; the returned output reverses it back into dict insertion order)
and the store of the caller's match lists (consed back into original
order). -/
def dedupGo (G : FxGraph) : List MatchEntry → List Nat →
    List (Nat × List MatchElem) → List MatchEntry →
    Option (List (Nat × List MatchElem) × List MatchEntry)
  | [], _, outAcc, stAcc => some (outAcc.reverse, stAcc)
  | e :: rest, seen, outAcc, stAcc =>
    let ms := markSeen e.shape (false, seen)
    if ms.1 then dedupGo G rest ms.2 outAcc (e :: stAcc)
    else
      match processEntry G e.shape with
      | none => none
      | some (outList, newShape) =>
        dedupGo G rest ms.2 ((e.name, outList) :: outAcc)
          ({ name := e.name, shape := newShape } :: stAcc)

/-- `_get_dedup_subgraphs` (source lines 96-196): iterate the matches in
reverse insertion order; the result is the output mapping (in dict
insertion order) paired with the post-call state of the caller's match
lists. -/
def _get_dedup_subgraphs (G : FxGraph) (matchList : List MatchEntry) :
    Option (List (Nat × List MatchElem) × List MatchEntry) :=
  dedupGo G matchList.reverse [] [] []

/-- Whether a match value is a plain two-node pair (the shape whose
stored list an accepted entry reverses in place). -/
def isPlainPair : List MatchElem → Bool
  | [MatchElem.node _, MatchElem.node _] => true
  | _ => false

/-- Node `n` appears among the argument atoms of node `m` (one nesting
level included), the "direct data dependency" relation of C9. -/
def occursInArgs (G : FxGraph) (n m : Nat) : Bool :=
  (G.node m).args.any (fun a =>
    match a with
    | .atom (.node k) => k == n
    | .listArg xs => xs.any (fun x =>
        match x with
        | .node k => k == n
        | _ => false)
    | _ => false)

/-- The chronological-chain property claim C9 states for an output list:
each node is a direct data dependency of the node that follows it. -/
def chronOK (G : FxGraph) : List MatchElem → Bool
  | MatchElem.node a :: MatchElem.node b :: rest =>
    occursInArgs G a b && chronOK G (MatchElem.node b :: rest)
  | _ :: _ :: _ => false
  | _ => true

/-- Two output entries claim disjoint node sets (the invariant of claim
C3: no node belongs to more than one output subgraph list). -/
def nodesDisjoint (p q : Nat × List MatchElem) : Prop :=
  ∀ n, n ∈ shapeNodes p.2 → n ∉ shapeNodes q.2

/-! ### `create_submodule_from_subgraph` (source lines 281-475) -/

inductive SubErr
  | binaryNotSupported
  | kwargInnerError
  | paramAttrError
  | argNotHandled
  | opNotSupported
  | fanout
  | iterLimit
deriving DecidableEq

abbrev GenName := Nat × Nat

def freshCounterAux (seen : List GenName) (nid : Nat) : Nat → Nat → Nat
  | c, 0 => c
  | c, f + 1 => if seen.contains (nid, c) then freshCounterAux seen nid (c + 1) f else c

/-- The while loop of `_add_placeholder` (source lines 354-356): the
first counter `c` such that `node.name + '_' + str(c)` is unused.
Generated names are modelled as `(node id, counter)` pairs: node names
are distinct per node, and the counter is recoverable as the digits after
the final underscore, so the concatenation is injective on these pairs.
The fuel `seen.length + 1` always suffices by pigeonhole. -/
def freshCounter (seen : List GenName) (nid : Nat) : Nat :=
  freshCounterAux seen nid 0 (seen.length + 1)

/-- `_add_placeholder` (source lines 351-361): generate the fresh name,
mark it seen, append the new placeholder.  Accumulator: `(seen_names,
placeholders created so far)`. -/
def addPlaceholder (acc : List GenName × List GenName) (nid : Nat) :
    List GenName × List GenName :=
  ((nid, freshCounter acc.1 nid) :: acc.1, acc.2 ++ [(nid, freshCounter acc.1 nid)])

/-- Inner elements of a list-valued positional argument (source lines
374-382): a `Node` gets a placeholder, anything else passes through. -/
def phArgsInner : List FxAtom → List GenName × List GenName → List GenName × List GenName
  | [], acc => acc
  | FxAtom.node nid :: rest, acc => phArgsInner rest (addPlaceholder acc nid)
  | _ :: rest, acc => phArgsInner rest acc

/-- The positional-argument loop of the first-node branch (source lines
366-385). -/
def phArgs : List FxArg → List GenName × List GenName → List GenName × List GenName
  | [], acc => acc
  | FxArg.atom (FxAtom.node nid) :: rest, acc => phArgs rest (addPlaceholder acc nid)
  | FxArg.atom _ :: rest, acc => phArgs rest acc
  | FxArg.listArg xs :: rest, acc => phArgs rest (phArgsInner xs acc)

/-- Inner elements of a list-valued keyword argument (source lines
395-401): `_add_placeholder` is called on every element, so a non-`Node`
element raises (`inner_kwarg.name` does not exist). -/
def phKwargInner : List FxAtom → List GenName × List GenName →
    Except SubErr (List GenName × List GenName)
  | [], acc => .ok acc
  | FxAtom.node nid :: rest, acc => phKwargInner rest (addPlaceholder acc nid)
  | _ :: _, _ => .error .kwargInnerError

/-- The keyword-argument loop of the first-node branch (source lines
387-403). -/
def phKwargs : List (Nat × FxArg) → List GenName × List GenName →
    Except SubErr (List GenName × List GenName)
  | [], acc => .ok acc
  | (_, FxArg.atom (FxAtom.node nid)) :: rest, acc => phKwargs rest (addPlaceholder acc nid)
  | (_, FxArg.atom _) :: rest, acc => phKwargs rest acc
  | (_, FxArg.listArg xs) :: rest, acc =>
    match phKwargInner xs acc with
    | .ok acc2 => phKwargs rest acc2
    | .error e => .error e

/-- The placeholders the first-node branch creates (source lines
342-405), in creation order: positional arguments first, then keyword
arguments, starting from an empty local `seen_names`. -/
def phNames (n : FxNode) : Except SubErr (List GenName) :=
  match phKwargs n.kwargs (phArgs n.args ([], [])) with
  | .ok acc => .ok acc.2
  | .error e => .error e

/-- `phNames` when it succeeds, `[]` otherwise (used to state the
placeholder bookkeeping uniformly). -/
def phNamesOr (G : FxGraph) (nid : Nat) : List GenName :=
  match phNames (G.node nid) with
  | .ok l => l
  | .error _ => []

structure BuildState where
  placeholders : List GenName
  body : List (FxOp × Target)
  nameIdx : Nat
  visited : List Nat
deriving DecidableEq

def initState : BuildState :=
  { placeholders := [], body := [], nameIdx := 0, visited := [] }

instance : DecidableEq (Except SubErr BuildState) := fun a b =>
  match a, b with
  | .ok x, .ok y =>
    if h : x = y then isTrue (congrArg Except.ok h)
    else isFalse (fun hc => h (by cases hc; rfl))
  | .ok _, .error _ => isFalse (fun hc => Except.noConfusion hc)
  | .error _, .ok _ => isFalse (fun hc => Except.noConfusion hc)
  | .error x, .error y =>
    if h : x = y then isTrue (congrArg Except.error h)
    else isFalse (fun hc => h (by cases hc; rfl))

def firstBranch (G : FxGraph) (firstId : Nat) (st : BuildState) : Except SubErr BuildState :=
  match phNames (G.node firstId) with
  | .ok l => .ok { st with placeholders := st.placeholders ++ l }
  | .error e => .error e

/-- Extra (second and later) positional arguments of a non-first node
(source lines 422-434): a `torch.nn.Parameter` reaches
`gm.placeholder(mod_name)` on line 429, which does not exist on a
`GraphModule` (AttributeError); a `float`/`int`/`torch.dtype` passes
through; any other type raises `arg of type ... not handled yet`. -/
def extraArgsCheck : List FxArg → Except SubErr Unit
  | [] => .ok ()
  | FxArg.atom (FxAtom.param _) :: _ => .error .paramAttrError
  | FxArg.atom FxAtom.numF :: rest => extraArgsCheck rest
  | FxArg.atom FxAtom.numI :: rest => extraArgsCheck rest
  | FxArg.atom FxAtom.dtypeLit :: rest => extraArgsCheck rest
  | _ :: _ => .error .argNotHandled

/-- The non-first-node branch (source lines 406-435): assert the target
is not in `BINARY_FUNCTIONS` (line 413), then process `args[1:]`
(`args[0]` is replaced by the previous copied node and never
inspected). -/
def elseBranch (G : FxGraph) (curId : Nat) (st : BuildState) : Except SubErr BuildState :=
  if (G.node curId).target.isBinary then .error .binaryNotSupported
  else
    match extraArgsCheck ((G.node curId).args.drop 1) with
    | .ok _ => .ok st
    | .error _e => .error _e

/-- Copying one node into the new graph (source lines 437-455): a module
call deep-copies the module under a fresh `mod_<i>` name; function and
method calls copy the target; any other op kind raises `not supported
yet`. -/
def copyStep (n : FxNode) (st : BuildState) : Except SubErr BuildState :=
  match n.op with
  | FxOp.call_module =>
    .ok { st with body := st.body ++ [(FxOp.call_module, n.target)], nameIdx := st.nameIdx + 1 }
  | FxOp.call_function => .ok { st with body := st.body ++ [(FxOp.call_function, n.target)] }
  | FxOp.call_method => .ok { st with body := st.body ++ [(FxOp.call_method, n.target)] }
  | _ => .error .opNotSupported

inductive StepRes
  | halt (r : Except SubErr BuildState)
  | next (nxt : Nat) (st2 : BuildState)

/-- One pass of the `while True` loop (source lines 341-469): the
first-node or later-node argument handling, the node copy, the break on
`last_node`, the single-user step, and the iteration-ceiling check
(`cur_iteration > 100` after the increment).  `visited` records the
original node the pass handles. -/
def subStep (G : FxGraph) (firstId lastId curId : Nat) (st : BuildState) (curIter : Nat) :
    StepRes :=
  let st0 : BuildState := { st with visited := st.visited ++ [curId] }
  match (if curId = firstId then firstBranch G firstId st0 else elseBranch G curId st0) with
  | .error e => .halt (.error e)
  | .ok st1 =>
    match copyStep (G.node curId) st1 with
    | .error e => .halt (.error e)
    | .ok st2 =>
      if curId = lastId then .halt (.ok st2)
      else
        match (G.node curId).users with
        | [nxt] =>
          if 100 < curIter + 1 then .halt (.error .iterLimit)
          else .next nxt st2
        | _ => .halt (.error .fanout)

/-- The walk, iterated.  The outer `Option` is modelling fuel only
(`none` = the model ran out of fuel); fuel `101` is proved sufficient
below, because the loop's own `iteration_limit` counter fails with
`iterLimit` first. -/
def subLoop (G : FxGraph) (firstId lastId : Nat) :
    Nat → Nat → BuildState → Nat → Option (Except SubErr BuildState)
  | 0, _, _, _ => none
  | fuel + 1, curId, st, curIter =>
    match subStep G firstId lastId curId st curIter with
    | .halt r => some r
    | .next nxt st2 => subLoop G firstId lastId fuel nxt st2 (curIter + 1)

/-- `create_submodule_from_subgraph` (source lines 281-475): run the walk
from `first_node` with a fresh build state. -/
def create_submodule_from_subgraph (G : FxGraph) (firstId lastId : Nat) :
    Option (Except SubErr BuildState) :=
  subLoop G firstId lastId 101 firstId initState 0

/-! Node-argument counting, for claim C4. -/

def atomNodeCount : FxAtom → Nat
  | FxAtom.node _ => 1
  | _ => 0

def argNodeOcc : FxArg → Nat
  | FxArg.atom a => atomNodeCount a
  | FxArg.listArg xs => (xs.map atomNodeCount).sum

/-- The number of Node-valued argument occurrences (positional and
keyword, one nesting level included) of a node. -/
def nodeArgOccurrences (n : FxNode) : Nat :=
  (n.args.map argNodeOcc).sum + (n.kwargs.map (fun kw => argNodeOcc kw.2)).sum

def atomNodeIds : FxAtom → List Nat
  | FxAtom.node nid => [nid]
  | _ => []

def argNodeIds : FxArg → List Nat
  | FxArg.atom a => atomNodeIds a
  | FxArg.listArg xs => xs.foldr (fun a acc => atomNodeIds a ++ acc) []

/-- Modelled from the spec, for the C4 comparison: "the number of
distinct Node-valued arguments consumed by the chain's first node
(duplicates of the same source collapse to one input)". -/
def distinctNodeArgsSpec (n : FxNode) : Nat :=
  ((n.args.foldr (fun a acc => argNodeIds a ++ acc) []) ++
    (n.kwargs.foldr (fun kw acc => argNodeIds kw.2 ++ acc) [])).dedup.length

/-! ### Concrete inputs for the graph claims -/

/-- A graph with no interesting structure (all ids blank). -/
def gTriv : FxGraph := ⟨fun _ => blankNode⟩

def c2Matches : List MatchEntry := [{ name := 0, shape := [.node 3, .node 4] }]

def c2WMatches : List MatchEntry := [{ name := 5, shape := [.node 9] }]

def c3Matches : List MatchEntry :=
  [{ name := 0, shape := [.node 1] }, { name := 1, shape := [.node 2] }]

def c9Matches : List MatchEntry := [{ name := 0, shape := [.node 1, .node 2] }]

/-- A three-node dependency chain `1 -> 2 -> 3` with external predecessor
`0` and external successor `4`. -/
def gChain : FxGraph :=
  ⟨fun n =>
    if n = 1 then { blankNode with args := [FxArg.atom (FxAtom.node 0)], users := [2] }
    else if n = 2 then { blankNode with args := [FxArg.atom (FxAtom.node 1)], users := [3] }
    else if n = 3 then { blankNode with args := [FxArg.atom (FxAtom.node 2)], users := [4] }
    else blankNode⟩

def c9WMatches : List MatchEntry := [{ name := 7, shape := [.pair 2 1, .node 3] }]

/-- A one-node subgraph whose node consumes the same source node `5`
twice (the `y = x + x` shape of the source comment on line 367). -/
def gDupArg : FxGraph :=
  ⟨fun n =>
    if n = 0 then
      { op := FxOp.call_function, target := Target.other 7,
        args := [FxArg.atom (FxAtom.node 5), FxArg.atom (FxAtom.node 5)],
        kwargs := [], users := [] }
    else blankNode⟩

/-- A one-node subgraph whose single node is a `torch.add` call. -/
def gAddFirst : FxGraph :=
  ⟨fun n =>
    if n = 0 then
      { op := FxOp.call_function, target := Target.torchAdd,
        args := [FxArg.atom (FxAtom.node 1), FxArg.atom (FxAtom.node 2)],
        kwargs := [], users := [] }
    else blankNode⟩

/-- A two-node chain `0 -> 1` whose second node is a `torch.mul` call. -/
def gBinSecond : FxGraph :=
  ⟨fun n =>
    if n = 0 then
      { op := FxOp.call_function, target := Target.other 1, args := [], kwargs := [],
        users := [1] }
    else if n = 1 then
      { op := FxOp.call_function, target := Target.torchMul,
        args := [FxArg.atom (FxAtom.node 0)], kwargs := [], users := [] }
    else blankNode⟩

/-- A malformed cyclic graph: every node's sole user is node `0`, so the
walk from `0` towards an unreachable `last_node = 1` never breaks. -/
def gSelfLoop : FxGraph :=
  ⟨fun _ =>
    { op := FxOp.call_function, target := Target.other 3, args := [], kwargs := [],
      users := [0] }⟩

/-! ### Properties of the selection loop -/

theorem getD_mem_of_lt {l : List ℚ} {i : Nat} (h : i < l.length) : l.getD i 0 ∈ l := by
  rw [List.getD_eq_getElem _ _ h]
  exact List.getElem_mem _

/-- Invariant of `selectBestAux`: either nothing beats the running best
and the accumulator is returned unchanged, or the result is the first
maximum of the remaining list, 1-indexed from `idx`. -/
theorem selectBestAux_spec (rest : List ℚ) :
    ∀ (bv : ℚ) (bc : Option Nat) (idx : Nat),
      ((∀ v ∈ rest, v ≤ bv) ∧ selectBestAux rest bv bc idx = (bv, bc)) ∨
      (∃ i, i < rest.length ∧ bv < rest.getD i 0 ∧
        (∀ k, k < i → rest.getD k 0 < rest.getD i 0) ∧
        (∀ k, k < rest.length → rest.getD k 0 ≤ rest.getD i 0) ∧
        selectBestAux rest bv bc idx = (rest.getD i 0, some (idx + i + 1))) := by
  induction rest with
  | nil =>
    intro bv bc idx
    refine Or.inl ⟨?_, rfl⟩
    intro v hv
    cases hv
  | cons v rest ih =>
    intro bv bc idx
    by_cases hlt : bv < v
    · rcases ih v (some (idx + 1)) (idx + 1) with ⟨hall, heq⟩ | ⟨i, hi, hbv, hfirst, hmax, heq⟩
      · refine Or.inr ⟨0, Nat.succ_pos _, ?_, ?_, ?_, ?_⟩
        · simpa using hlt
        · intro k hk
          exact absurd hk (Nat.not_lt_zero k)
        · intro k hk
          cases k with
          | zero => simp
          | succ k =>
            simp only [List.getD_cons_succ, List.getD_cons_zero]
            exact hall _ (getD_mem_of_lt (by simpa using hk))
        · simp only [selectBestAux, if_pos hlt, List.getD_cons_zero]
          rw [heq]
      · refine Or.inr ⟨i + 1, Nat.succ_lt_succ hi, ?_, ?_, ?_, ?_⟩
        · simp only [List.getD_cons_succ]
          exact lt_trans hlt hbv
        · intro k hk
          cases k with
          | zero =>
            simp only [List.getD_cons_zero, List.getD_cons_succ]
            exact hbv
          | succ k =>
            simp only [List.getD_cons_succ]
            exact hfirst k (by omega)
        · intro k hk
          cases k with
          | zero =>
            simp only [List.getD_cons_zero, List.getD_cons_succ]
            exact le_of_lt hbv
          | succ k =>
            simp only [List.getD_cons_succ]
            exact hmax k (by simpa using hk)
        · have harith : idx + 1 + i + 1 = idx + (i + 1) + 1 := by omega
          rw [harith] at heq
          simp only [selectBestAux, if_pos hlt, List.getD_cons_succ]
          exact heq
    · rcases ih bv bc (idx + 1) with ⟨hall, heq⟩ | ⟨i, hi, hbv, hfirst, hmax, heq⟩
      · refine Or.inl ⟨?_, ?_⟩
        · intro u hu
          rcases List.mem_cons.mp hu with h | h
          · exact h ▸ le_of_not_lt hlt
          · exact hall u h
        · simp only [selectBestAux, if_neg hlt]
          exact heq
      · refine Or.inr ⟨i + 1, Nat.succ_lt_succ hi, ?_, ?_, ?_, ?_⟩
        · simp only [List.getD_cons_succ]
          exact hbv
        · intro k hk
          cases k with
          | zero =>
            simp only [List.getD_cons_zero, List.getD_cons_succ]
            exact lt_of_le_of_lt (le_of_not_lt hlt) hbv
          | succ k =>
            simp only [List.getD_cons_succ]
            exact hfirst k (by omega)
        · intro k hk
          cases k with
          | zero =>
            simp only [List.getD_cons_zero, List.getD_cons_succ]
            exact le_of_lt (lt_of_le_of_lt (le_of_not_lt hlt) hbv)
          | succ k =>
            simp only [List.getD_cons_succ]
            exact hmax k (by simpa using hk)
        · have harith : idx + 1 + i + 1 = idx + (i + 1) + 1 := by omega
          rw [harith] at heq
          simp only [selectBestAux, if_neg hlt, List.getD_cons_succ]
          exact heq

theorem selectBest_none_of_all_le (means : List ℚ)
    (h : ∀ v ∈ means, v ≤ (-10000 : ℚ)) : selectBest means = none := by
  unfold selectBest
  rcases selectBestAux_spec means (-10000) none 0 with ⟨_, heq⟩ | ⟨i, hi, hbv, _, _, _⟩
  · rw [heq]
  · exact absurd (h _ (getD_mem_of_lt hi)) (not_le_of_lt hbv)

/-! ### Claim theorems about the summary -/

/-- C1 (code_bug evidence): when `tabulate` is unavailable,
`print_n_shadows_summary` does print the remediation message, but then
still evaluates `tabulate(results, headers=headers)` on line 688 and
raises (`tabulate` is an unbound local after the failed import), instead
of completing. -/
theorem c1_missing_tabulate_raises :
    (print_n_shadows_summary false c1Input).remediationPrinted = true ∧
    (print_n_shadows_summary false c1Input).result = .error .tabulateUnbound := by
  constructor <;> rfl

/-- C5 (code_bug evidence): the number of per-candidate column headers is
computed from `len(data_row[1])`, the character length of the subgraph's
`ref_node_name` string, not the candidate count.  For one subgraph with
ref node name "ab" (length 2) and three candidates, the code produces
headers `[1, 2]` while the specified headers are `[1, 2, 3]`. -/
theorem c5_header_count_mismatch :
    (print_n_shadows_summary true c5Input).result =
      .ok ([{ subgraph_name := "subgraph_0", ref_node_name := "ab",
              best_idx := some 3, means := [1, 2, 3] }], [1, 2]) ∧
    headersPerSpec c5Input = [1, 2, 3] ∧
    ([1, 2] : List Nat) ≠ [1, 2, 3] := by
  refine ⟨?_, by rfl, by decide⟩
  rfl

/-- C6 (confirmed): whenever some candidate mean clears the `-10000.0`
sentinel, the selected best candidate is the 1-indexed position of the
first occurrence of the strictly highest mean (so an exact tie keeps the
earlier index); and on means `[50, 62, 30]` the selected index is `2`,
also through the full summary function. -/
theorem c6_best_candidate_selection :
    (∀ means : List ℚ, (∃ v ∈ means, (-10000 : ℚ) < v) →
      ∃ j, selectBest means = some j ∧ 1 ≤ j ∧ j - 1 < means.length ∧
        (∀ k, k < means.length → means.getD k 0 ≤ means.getD (j - 1) 0) ∧
        (∀ k, k < j - 1 → means.getD k 0 < means.getD (j - 1) 0)) ∧
    selectBest [50, 62, 30] = some 2 ∧
    (print_n_shadows_summary true c6Input).result =
      .ok ([{ subgraph_name := "subgraph_0", ref_node_name := "linear1",
              best_idx := some 2, means := [50, 62, 30] }], [1, 2, 3, 4, 5, 6, 7]) := by
  refine ⟨?_, by rfl, by rfl⟩
  intro means h
  rcases selectBestAux_spec means (-10000) none 0 with ⟨hall, _⟩ | ⟨i, hi, _, hfirst, hmax, heq⟩
  · rcases h with ⟨v, hv, hvgt⟩
    exact absurd (hall v hv) (not_le_of_lt hvgt)
  · refine ⟨i + 1, ?_, by omega, by simpa using hi, ?_, ?_⟩
    · unfold selectBest
      rw [heq]
      simp
    · intro k hk
      simpa using hmax k hk
    · intro k hk
      simpa using hfirst k (by omega)

/-- C10 (confirmed): with no candidates, and likewise whenever every
candidate mean is less than or equal to the hard-coded sentinel
`-10000.0`, the selection loop reports `None` (no candidate is selected,
because only `val > best_val` updates the accumulator); in particular a
single candidate with mean exactly `-10000.0` is not selected. -/
theorem c10_sentinel_keeps_none :
    selectBest [] = none ∧
    (∀ means : List ℚ, (∀ v ∈ means, v ≤ (-10000 : ℚ)) → selectBest means = none) ∧
    selectBest [-10000] = none := by
  refine ⟨rfl, ?_, ?_⟩
  · exact selectBest_none_of_all_le
  · exact selectBest_none_of_all_le [-10000] (by intro v hv; simp at hv; simp [hv])

/-! ### Properties of deduplication -/

theorem nodesDisjoint_symm {p q : Nat × List MatchElem} (h : nodesDisjoint p q) :
    nodesDisjoint q p :=
  fun n hn hq => h n hq hn

theorem seenAdd_mem {acc : Bool × List Nat} {n : Nat} (m : Nat) (h : n ∈ acc.2) :
    n ∈ (seenAdd acc m).2 :=
  List.mem_cons_of_mem _ h

theorem seenAdd_self (acc : Bool × List Nat) (m : Nat) : m ∈ (seenAdd acc m).2 :=
  List.mem_cons_self _ _

theorem markSeen_mono (shape : List MatchElem) :
    ∀ (acc : Bool × List Nat) (n : Nat), n ∈ acc.2 → n ∈ (markSeen shape acc).2 := by
  induction shape with
  | nil => intro acc n h; exact h
  | cons e rest ih =>
    intro acc n h
    cases e with
    | node m => exact ih _ n (seenAdd_mem m h)
    | pair a b => exact ih _ n (seenAdd_mem b (seenAdd_mem a h))

theorem markSeen_adds (shape : List MatchElem) :
    ∀ (acc : Bool × List Nat) (n : Nat), n ∈ shapeNodes shape → n ∈ (markSeen shape acc).2 := by
  induction shape with
  | nil => intro acc n h; cases h
  | cons e rest ih =>
    intro acc n h
    cases e with
    | node m =>
      simp only [shapeNodes] at h
      rcases List.mem_cons.mp h with rfl | h2
      · exact markSeen_mono rest _ n (seenAdd_self _ _)
      · exact ih _ n h2
    | pair a b =>
      simp only [shapeNodes] at h
      rcases List.mem_cons.mp h with rfl | h2
      · exact markSeen_mono rest _ n (seenAdd_mem b (seenAdd_self _ _))
      · rcases List.mem_cons.mp h2 with rfl | h3
        · exact markSeen_mono rest _ n (seenAdd_self _ _)
        · exact ih _ n h3

theorem markSeen_false (shape : List MatchElem) :
    ∀ acc : Bool × List Nat, (markSeen shape acc).1 = false →
      acc.1 = false ∧ ∀ n ∈ shapeNodes shape, n ∉ acc.2 := by
  induction shape with
  | nil =>
    intro acc h
    refine ⟨h, ?_⟩
    intro n hn
    cases hn
  | cons e rest ih =>
    intro acc h
    cases e with
    | node m =>
      have h2 := ih (seenAdd acc m) h
      have hflag : (acc.1 || acc.2.contains m) = false := h2.1
      rw [Bool.or_eq_false_iff] at hflag
      refine ⟨hflag.1, ?_⟩
      intro n hn
      simp only [shapeNodes] at hn
      rcases List.mem_cons.mp hn with rfl | hn2
      · intro hmem
        have : acc.2.contains n = true := List.elem_eq_true_of_mem hmem
        rw [this] at hflag
        exact absurd hflag.2 (by simp)
      · intro hmem
        exact (h2.2 n hn2) (List.mem_cons_of_mem _ hmem)
    | pair a b =>
      have h2 := ih (seenAdd (seenAdd acc a) b) h
      have hflag : ((acc.1 || acc.2.contains a) || (seenAdd acc a).2.contains b) = false := h2.1
      rw [Bool.or_eq_false_iff, Bool.or_eq_false_iff] at hflag
      refine ⟨hflag.1.1, ?_⟩
      intro n hn
      simp only [shapeNodes] at hn
      rcases List.mem_cons.mp hn with rfl | hn2
      · intro hmem
        have : acc.2.contains n = true := List.elem_eq_true_of_mem hmem
        rw [this] at hflag
        exact absurd hflag.1.2 (by simp)
      · rcases List.mem_cons.mp hn2 with rfl | hn3
        · intro hmem
          have : (seenAdd acc a).2.contains n = true :=
            List.elem_eq_true_of_mem (List.mem_cons_of_mem _ hmem)
          rw [this] at hflag
          exact absurd hflag.2 (by simp)
        · intro hmem
          exact (h2.2 n hn3) (List.mem_cons_of_mem _ (List.mem_cons_of_mem _ hmem))

theorem orderStep_slots (G : FxGraph) (nodes : List Nat)
    (acc acc' : Option Nat × Option Nat × Option Nat) (n : Nat)
    (h : orderStep G nodes acc n = some acc') :
    (∀ x, acc'.1 = some x → acc.1 = some x ∨ x = n) ∧
    (∀ x, acc'.2.1 = some x → acc.2.1 = some x ∨ x = n) ∧
    (∀ x, acc'.2.2 = some x → acc.2.2 = some x ∨ x = n) := by
  unfold orderStep at h
  split at h
  · injection h with h
    subst h
    refine ⟨?_, ?_, ?_⟩ <;> intro x hx <;> split at hx <;> (try split at hx) <;> simp_all
  · cases h

theorem shapeNodes_map_node (xs : List Nat) :
    shapeNodes (xs.map MatchElem.node) = xs := by
  induction xs with
  | nil => rfl
  | cons a rest ih => simp [shapeNodes, ih]

theorem _order_nodes_spec (G : FxGraph) (na nb nc : Nat) (l : List Nat)
    (h : _order_nodes G na nb nc = some l) :
    ∃ f m la, l = [la, m, f] ∧ f ∈ [na, nb, nc] ∧ m ∈ [na, nb, nc] ∧ la ∈ [na, nb, nc] ∧
      (G.node m).args.head? = some (FxArg.atom (FxAtom.node f)) ∧
      (G.node la).args.head? = some (FxArg.atom (FxAtom.node m)) := by
  unfold _order_nodes at h
  split at h
  · cases h
  · rename_i s1 h1
    split at h
    · cases h
    · rename_i s2 h2
      split at h
      · cases h
      · rename_i s3 h3
        split at h
        · rename_i f0 m0 l0
          split at h
          · injection h with h
            subst h
            rename_i hcond
            have hs1 := orderStep_slots G _ _ _ _ h1
            have hs2 := orderStep_slots G _ _ _ _ h2
            have hs3s := orderStep_slots G _ _ _ _ h3
            have hf : f0 ∈ [na, nb, nc] := by
              rcases hs3s.1 f0 rfl with hup | rfl
              · rcases hs2.1 f0 hup with hup2 | rfl
                · rcases hs1.1 f0 hup2 with hup3 | rfl
                  · cases hup3
                  · simp
                · simp
              · simp
            have hm : m0 ∈ [na, nb, nc] := by
              rcases hs3s.2.1 m0 rfl with hup | rfl
              · rcases hs2.2.1 m0 hup with hup2 | rfl
                · rcases hs1.2.1 m0 hup2 with hup3 | rfl
                  · cases hup3
                  · simp
                · simp
              · simp
            have hl : l0 ∈ [na, nb, nc] := by
              rcases hs3s.2.2 l0 rfl with hup | rfl
              · rcases hs2.2.2 l0 hup with hup2 | rfl
                · rcases hs1.2.2 l0 hup2 with hup3 | rfl
                  · cases hup3
                  · simp
                · simp
              · simp
            exact ⟨f0, m0, l0, rfl, hf, hm, hl, hcond.1, hcond.2⟩
          · cases h
        · cases h

theorem processEntry_store (G : FxGraph) (shape outList newShape : List MatchElem)
    (h : processEntry G shape = some (outList, newShape))
    (hp : isPlainPair shape = false) : newShape = shape := by
  unfold processEntry at h
  split at h
  · injection h with h
    injection h with ho hs
    exact hs.symm
  · simp [isPlainPair] at hp
  · rename_i a b c
    cases hon : _order_nodes G a b c with
    | none => rw [hon] at h; cases h
    | some l =>
      rw [hon] at h
      injection h with h
      injection h with ho hs
      exact hs.symm
  · rename_i c a b
    cases hon : _order_nodes G a b c with
    | none => rw [hon] at h; cases h
    | some l =>
      rw [hon] at h
      injection h with h
      injection h with ho hs
      exact hs.symm
  · cases h

theorem processEntry_nodes (G : FxGraph) (shape outList newShape : List MatchElem)
    (h : processEntry G shape = some (outList, newShape)) :
    ∀ n, n ∈ shapeNodes outList → n ∈ shapeNodes shape := by
  unfold processEntry at h
  split at h
  · injection h with h
    injection h with ho hs
    subst ho
    intro n hn
    exact hn
  · injection h with h
    injection h with ho hs
    subst ho
    intro n hn
    simp only [shapeNodes] at hn ⊢
    rcases List.mem_cons.mp hn with rfl | hn2
    · exact List.mem_cons_of_mem _ (List.mem_cons_self _ _)
    · rcases List.mem_cons.mp hn2 with rfl | hn3
      · exact List.mem_cons_self _ _
      · cases hn3
  · rename_i a b c
    cases hon : _order_nodes G a b c with
    | none => rw [hon] at h; cases h
    | some l =>
      rw [hon] at h
      injection h with h
      injection h with ho hs
      subst ho
      intro n hn
      rw [shapeNodes_map_node] at hn
      obtain ⟨f, m, la, rfl, hf, hm, hl, -, -⟩ := _order_nodes_spec G a b c l hon
      simp only [shapeNodes]
      simp only [List.reverse_cons, List.reverse_nil, List.nil_append, List.cons_append,
        List.mem_cons, List.mem_singleton] at hn ⊢
      rcases hn with rfl | rfl | rfl | h0
      · simp only [List.mem_cons, List.not_mem_nil, or_false] at hf ⊢
        tauto
      · simp only [List.mem_cons, List.not_mem_nil, or_false] at hm ⊢
        tauto
      · simp only [List.mem_cons, List.not_mem_nil, or_false] at hl ⊢
        tauto
      · cases h0
  · rename_i c a b
    cases hon : _order_nodes G a b c with
    | none => rw [hon] at h; cases h
    | some l =>
      rw [hon] at h
      injection h with h
      injection h with ho hs
      subst ho
      intro n hn
      rw [shapeNodes_map_node] at hn
      obtain ⟨f, m, la, rfl, hf, hm, hl, -, -⟩ := _order_nodes_spec G a b c l hon
      simp only [shapeNodes]
      simp only [List.reverse_cons, List.reverse_nil, List.nil_append, List.cons_append,
        List.mem_cons, List.mem_singleton] at hn ⊢
      rcases hn with rfl | rfl | rfl | h0
      · simp only [List.mem_cons, List.not_mem_nil, or_false] at hf ⊢
        tauto
      · simp only [List.mem_cons, List.not_mem_nil, or_false] at hm ⊢
        tauto
      · simp only [List.mem_cons, List.not_mem_nil, or_false] at hl ⊢
        tauto
      · cases h0
  · cases h

theorem dedupGo_disjoint (G : FxGraph) :
    ∀ (l : List MatchEntry) (seen : List Nat) (outAcc : List (Nat × List MatchElem))
      (stAcc : List MatchEntry) (out : List (Nat × List MatchElem)) (st : List MatchEntry),
      dedupGo G l seen outAcc stAcc = some (out, st) →
      (∀ p ∈ outAcc, ∀ n, n ∈ shapeNodes p.2 → n ∈ seen) →
      List.Pairwise nodesDisjoint outAcc →
      List.Pairwise nodesDisjoint out := by
  intro l
  induction l with
  | nil =>
    intro seen outAcc stAcc out st h hseen hpw
    simp only [dedupGo] at h
    injection h with h
    injection h with ho hs
    subst ho
    rw [List.pairwise_reverse]
    exact hpw.imp nodesDisjoint_symm
  | cons e rest ih =>
    intro seen outAcc stAcc out st h hseen hpw
    simp only [dedupGo] at h
    split at h
    · exact ih _ _ _ _ _ h (fun p hp n hn => markSeen_mono _ _ n (hseen p hp n hn)) hpw
    · rename_i hws
      split at h
      · cases h
      · rename_i outList newShape heq
        apply ih _ _ _ _ _ h
        · intro p hp n hn
          rcases List.mem_cons.mp hp with rfl | hp2
          · exact markSeen_adds _ _ n (processEntry_nodes G _ _ _ heq n hn)
          · exact markSeen_mono _ _ n (hseen p hp2 n hn)
        · refine List.Pairwise.cons ?_ hpw
          intro q hq n hn hnq
          have h1 : n ∈ shapeNodes e.shape := processEntry_nodes G _ _ _ heq n hn
          have h2 : n ∈ seen := hseen q hq n hnq
          have h3 := (markSeen_false e.shape (false, seen) (by
            revert hws
            cases (markSeen e.shape (false, seen)).1 <;> simp)).2 n h1
          exact h3 h2

/-- C3 (confirmed): every node appears in at most one output subgraph
list of `_get_dedup_subgraphs`: the output entries have pairwise disjoint
node sets, because an entry any of whose nodes is already in
`seen_nodes` is skipped entirely. -/
theorem c3_node_in_at_most_one_subgraph (G : FxGraph) (matchList : List MatchEntry)
    (out : List (Nat × List MatchElem)) (st : List MatchEntry)
    (h : _get_dedup_subgraphs G matchList = some (out, st)) :
    List.Pairwise nodesDisjoint out :=
  dedupGo_disjoint G matchList.reverse [] [] [] out st h
    (fun p hp => absurd hp (List.not_mem_nil p)) List.Pairwise.nil

/-- C3 witness: a concrete two-entry run. -/
theorem c3_witness :
    _get_dedup_subgraphs gTriv c3Matches =
      some ([(1, [MatchElem.node 2]), (0, [MatchElem.node 1])], c3Matches) ∧
    List.Pairwise nodesDisjoint [(1, [MatchElem.node 2]), (0, [MatchElem.node 1])] :=
  ⟨by rfl,
    c3_node_in_at_most_one_subgraph gTriv c3Matches
      [(1, [MatchElem.node 2]), (0, [MatchElem.node 1])] c3Matches (by rfl)⟩

/-- C2 (counterexample): running `_get_dedup_subgraphs` twice on the same
matches mapping does not yield identical output.  An accepted plain
two-node match list is reversed in place inside the caller's mapping
(`list_of_nodes = cur_match[1]; list_of_nodes.reverse()`), so the second
run reverses it back and emits the opposite order. -/
theorem c2_counterexample_second_run_differs :
    _get_dedup_subgraphs gTriv c2Matches =
      some ([(0, [MatchElem.node 4, MatchElem.node 3])],
        [{ name := 0, shape := [MatchElem.node 4, MatchElem.node 3] }]) ∧
    _get_dedup_subgraphs gTriv [{ name := 0, shape := [MatchElem.node 4, MatchElem.node 3] }] =
      some ([(0, [MatchElem.node 3, MatchElem.node 4])],
        [{ name := 0, shape := [MatchElem.node 3, MatchElem.node 4] }]) ∧
    ([(0, [MatchElem.node 4, MatchElem.node 3])] : List (Nat × List MatchElem)) ≠
      [(0, [MatchElem.node 3, MatchElem.node 4])] :=
  ⟨by rfl, by rfl, by decide⟩

theorem dedupGo_store_id (G : FxGraph) :
    ∀ (l : List MatchEntry) (seen : List Nat) (outAcc : List (Nat × List MatchElem))
      (stAcc : List MatchEntry) (out : List (Nat × List MatchElem)) (st : List MatchEntry),
      (∀ e ∈ l, isPlainPair e.shape = false) →
      dedupGo G l seen outAcc stAcc = some (out, st) →
      st = l.reverse ++ stAcc := by
  intro l
  induction l with
  | nil =>
    intro seen outAcc stAcc out st _ h
    simp only [dedupGo] at h
    injection h with h
    injection h with ho hs
    subst hs
    simp
  | cons e rest ih =>
    intro seen outAcc stAcc out st hp h
    simp only [dedupGo] at h
    split at h
    · have := ih _ _ _ _ _ (fun x hx => hp x (List.mem_cons_of_mem _ hx)) h
      rw [this]
      simp
    · split at h
      · cases h
      · rename_i outList newShape heq
        have hns : newShape = e.shape :=
          processEntry_store G _ _ _ heq (hp e (List.mem_cons_self _ _))
        have hent : ({ name := e.name, shape := newShape } : MatchEntry) = e := by
          rw [hns]
        have := ih _ _ _ _ _ (fun x hx => hp x (List.mem_cons_of_mem _ hx)) h
        rw [this, hent]
        simp

/-- C2 (amended, confirmed): when no match value is a plain two-node
pair, `_get_dedup_subgraphs` leaves the matches mapping unchanged, so a
second run on the same mapping returns the identical output.  (With a
plain pair the stored list is reversed in place and the second run
differs, per the counterexample.) -/
theorem c2_rerun_fixed_without_plain_pairs (G : FxGraph) (matchList : List MatchEntry)
    (out : List (Nat × List MatchElem)) (st : List MatchEntry)
    (hshape : ∀ e ∈ matchList, isPlainPair e.shape = false)
    (h : _get_dedup_subgraphs G matchList = some (out, st)) :
    st = matchList ∧ _get_dedup_subgraphs G st = some (out, st) := by
  have hst : st = matchList := by
    have h2 := dedupGo_store_id G matchList.reverse [] [] [] out st
      (fun e he => hshape e (List.mem_reverse.mp he)) h
    simpa using h2
  refine ⟨hst, ?_⟩
  rw [hst] at h ⊢
  exact h

/-- C2 witness: a singleton match, rerun on the returned state. -/
theorem c2_witness :
    c2WMatches = c2WMatches ∧
    _get_dedup_subgraphs gTriv c2WMatches =
      some ([(5, [MatchElem.node 9])], c2WMatches) :=
  c2_rerun_fixed_without_plain_pairs gTriv c2WMatches [(5, [MatchElem.node 9])] c2WMatches
    (by decide) (by rfl)

theorem dedupGo_out_prop (G : FxGraph) (P : Nat × List MatchElem → Prop)
    (hP : ∀ (nm : Nat) (shape outList newShape : List MatchElem),
        processEntry G shape = some (outList, newShape) → P (nm, outList)) :
    ∀ (l : List MatchEntry) (seen : List Nat) (outAcc : List (Nat × List MatchElem))
      (stAcc : List MatchEntry) (out : List (Nat × List MatchElem)) (st : List MatchEntry),
      dedupGo G l seen outAcc stAcc = some (out, st) →
      (∀ p ∈ outAcc, P p) → ∀ p ∈ out, P p := by
  intro l
  induction l with
  | nil =>
    intro seen outAcc stAcc out st h hacc p hp
    simp only [dedupGo] at h
    injection h with h
    injection h with ho hs
    subst ho
    exact hacc p (List.mem_reverse.mp hp)
  | cons e rest ih =>
    intro seen outAcc stAcc out st h hacc p hp
    simp only [dedupGo] at h
    split at h
    · exact ih _ _ _ _ _ h hacc p hp
    · split at h
      · cases h
      · rename_i outList newShape heq
        refine ih _ _ _ _ _ h ?_ p hp
        intro q hq
        rcases List.mem_cons.mp hq with rfl | hq2
        · exact hP e.name e.shape outList newShape heq
        · exact hacc q hq2

theorem occursInArgs_of_head {G : FxGraph} {f m : Nat}
    (h : (G.node m).args.head? = some (FxArg.atom (FxAtom.node f))) :
    occursInArgs G f m = true := by
  unfold occursInArgs
  cases hargs : (G.node m).args with
  | nil => rw [hargs] at h; cases h
  | cons a rest =>
    rw [hargs] at h
    simp only [List.head?_cons, Option.some.injEq] at h
    subst h
    simp [List.any_cons]

theorem processEntry_len3 (G : FxGraph) (shape outList newShape : List MatchElem)
    (h : processEntry G shape = some (outList, newShape)) (hlen : outList.length = 3) :
    ∃ f m la, outList = [MatchElem.node f, MatchElem.node m, MatchElem.node la] ∧
      (G.node m).args.head? = some (FxArg.atom (FxAtom.node f)) ∧
      (G.node la).args.head? = some (FxArg.atom (FxAtom.node m)) := by
  unfold processEntry at h
  split at h
  · injection h with h
    injection h with ho hs
    subst ho
    cases hlen
  · injection h with h
    injection h with ho hs
    subst ho
    cases hlen
  · rename_i a b c
    cases hon : _order_nodes G a b c with
    | none => rw [hon] at h; cases h
    | some l =>
      rw [hon] at h
      injection h with h
      injection h with ho hs
      subst ho
      obtain ⟨f, m, la, rfl, -, -, -, hmid, hlast⟩ := _order_nodes_spec G a b c l hon
      exact ⟨f, m, la, rfl, hmid, hlast⟩
  · rename_i c a b
    cases hon : _order_nodes G a b c with
    | none => rw [hon] at h; cases h
    | some l =>
      rw [hon] at h
      injection h with h
      injection h with ho hs
      subst ho
      obtain ⟨f, m, la, rfl, -, -, -, hmid, hlast⟩ := _order_nodes_spec G a b c l hon
      exact ⟨f, m, la, rfl, hmid, hlast⟩
  · cases h

/-- C9 (counterexample): a plain two-node match is emitted as given
(reversed) with no dependency check at all, so the output list need not
be a dependency chain: with both nodes argument-free, deduplication
succeeds and emits `[2, 1]`, but node `2` does not appear among the
arguments of node `1`. -/
theorem c9_counterexample_pair_without_dependency :
    _get_dedup_subgraphs gTriv c9Matches =
      some ([(0, [MatchElem.node 2, MatchElem.node 1])],
        [{ name := 0, shape := [MatchElem.node 2, MatchElem.node 1] }]) ∧
    chronOK gTriv [MatchElem.node 2, MatchElem.node 1] = false :=
  ⟨by rfl, by rfl⟩

/-- C9 (amended, confirmed): every length-3 output list (the
nested-pair shape, ordered by `_order_nodes`) is a strict dependency
chain: the middle node's first argument is the first node and the last
node's first argument is the middle node, so each node appears among the
arguments of the node that follows it.  (Length-2 outputs are emitted as
given, without such a check.) -/
theorem c9_three_node_chain (G : FxGraph) (matchList : List MatchEntry)
    (out : List (Nat × List MatchElem)) (st : List MatchEntry)
    (k : Nat) (l : List MatchElem)
    (h : _get_dedup_subgraphs G matchList = some (out, st))
    (hmem : (k, l) ∈ out) (hlen : l.length = 3) :
    ∃ f m la, l = [MatchElem.node f, MatchElem.node m, MatchElem.node la] ∧
      (G.node m).args.head? = some (FxArg.atom (FxAtom.node f)) ∧
      (G.node la).args.head? = some (FxArg.atom (FxAtom.node m)) ∧
      occursInArgs G f m = true ∧ occursInArgs G m la = true := by
  have hprop := dedupGo_out_prop G
    (fun p => p.2.length = 3 →
      ∃ f m la, p.2 = [MatchElem.node f, MatchElem.node m, MatchElem.node la] ∧
        (G.node m).args.head? = some (FxArg.atom (FxAtom.node f)) ∧
        (G.node la).args.head? = some (FxArg.atom (FxAtom.node m)))
    (fun nm shape outList newShape heq hl => processEntry_len3 G shape outList newShape heq hl)
    matchList.reverse [] [] [] out st h
    (fun p hp => absurd hp (List.not_mem_nil p))
    (k, l) hmem hlen
  obtain ⟨f, m, la, hl2, hmid, hlast⟩ := hprop
  exact ⟨f, m, la, hl2, hmid, hlast, occursInArgs_of_head hmid, occursInArgs_of_head hlast⟩

/-- C9 witness: the three-node chain `1 -> 2 -> 3` matched as a nested
pair. -/
theorem c9_witness :
    ∃ f m la,
      ([MatchElem.node 1, MatchElem.node 2, MatchElem.node 3] : List MatchElem) =
        [MatchElem.node f, MatchElem.node m, MatchElem.node la] ∧
      (gChain.node m).args.head? = some (FxArg.atom (FxAtom.node f)) ∧
      (gChain.node la).args.head? = some (FxArg.atom (FxAtom.node m)) ∧
      occursInArgs gChain f m = true ∧ occursInArgs gChain m la = true :=
  c9_three_node_chain gChain c9WMatches
    [(7, [MatchElem.node 1, MatchElem.node 2, MatchElem.node 3])] c9WMatches 7
    [MatchElem.node 1, MatchElem.node 2, MatchElem.node 3] (by rfl) (by decide) (by rfl)

/-! ### Properties of the subgraph-extraction walk -/

theorem subLoop_zero (G : FxGraph) (firstId lastId curId : Nat) (st : BuildState)
    (curIter : Nat) : subLoop G firstId lastId 0 curId st curIter = none := rfl

theorem subLoop_succ (G : FxGraph) (firstId lastId fuel curId : Nat) (st : BuildState)
    (curIter : Nat) :
    subLoop G firstId lastId (fuel + 1) curId st curIter =
      match subStep G firstId lastId curId st curIter with
      | .halt r => some r
      | .next nxt st2 => subLoop G firstId lastId fuel nxt st2 (curIter + 1) := rfl

theorem firstBranch_ok {G : FxGraph} {firstId : Nat} {st s : BuildState}
    (h : firstBranch G firstId st = .ok s) :
    ∃ l, phNames (G.node firstId) = .ok l ∧
      s = { st with placeholders := st.placeholders ++ l } := by
  unfold firstBranch at h
  split at h
  · rename_i l hp
    injection h with h
    exact ⟨l, hp, h.symm⟩
  · cases h

theorem elseBranch_ok {G : FxGraph} {curId : Nat} {st s : BuildState}
    (h : elseBranch G curId st = .ok s) :
    s = st ∧ (G.node curId).target.isBinary = false := by
  unfold elseBranch at h
  split at h
  · cases h
  · rename_i hbin
    split at h
    · injection h with h
      exact ⟨h.symm, by simpa using hbin⟩
    · cases h

theorem copyStep_ok {n : FxNode} {st s : BuildState} (h : copyStep n st = .ok s) :
    s.placeholders = st.placeholders ∧ s.visited = st.visited := by
  unfold copyStep at h
  split at h
  · injection h with h
    rw [← h]
    exact ⟨rfl, rfl⟩
  · injection h with h
    rw [← h]
    exact ⟨rfl, rfl⟩
  · injection h with h
    rw [← h]
    exact ⟨rfl, rfl⟩
  · cases h

theorem branch_ok {G : FxGraph} {firstId curId : Nat} {st0 st1 : BuildState}
    (h : (if curId = firstId then firstBranch G firstId st0 else elseBranch G curId st0) =
      .ok st1) :
    st1.visited = st0.visited ∧
    (curId = firstId → ∃ l, phNames (G.node firstId) = Except.ok l ∧
      st1.placeholders = st0.placeholders ++ l) ∧
    (curId ≠ firstId → st1.placeholders = st0.placeholders ∧
      (G.node curId).target.isBinary = false) := by
  by_cases hfi : curId = firstId
  · rw [if_pos hfi] at h
    obtain ⟨l, hl, rfl⟩ := firstBranch_ok h
    exact ⟨rfl, fun _ => ⟨l, hl, rfl⟩, fun hne => absurd hfi hne⟩
  · rw [if_neg hfi] at h
    obtain ⟨rfl, hbin⟩ := elseBranch_ok h
    exact ⟨rfl, fun heq => absurd heq hfi, fun _ => ⟨rfl, hbin⟩⟩

theorem subStep_halt_ok {G : FxGraph} {firstId lastId curId : Nat} {st : BuildState}
    {curIter : Nat} {out : BuildState}
    (h : subStep G firstId lastId curId st curIter = .halt (.ok out)) :
    curId = lastId ∧ out.visited = st.visited ++ [curId] ∧
    (curId = firstId → ∃ l, phNames (G.node firstId) = Except.ok l ∧
      out.placeholders = st.placeholders ++ l) ∧
    (curId ≠ firstId → out.placeholders = st.placeholders ∧
      (G.node curId).target.isBinary = false) := by
  simp only [subStep] at h
  split at h
  · simp at h
  · rename_i st1 hbr
    split at h
    · simp at h
    · rename_i st2 hcs
      obtain ⟨hvis1, hfirst1, hnone1⟩ := branch_ok hbr
      obtain ⟨hph2, hvis2⟩ := copyStep_ok hcs
      split at h
      · rename_i hla
        injection h with h
        injection h with h
        subst h
        refine ⟨hla, by rw [hvis2, hvis1], ?_, ?_⟩
        · intro hcf
          obtain ⟨l, hl, hph⟩ := hfirst1 hcf
          exact ⟨l, hl, by rw [hph2, hph]⟩
        · intro hne
          exact ⟨by rw [hph2, (hnone1 hne).1], (hnone1 hne).2⟩
      · split at h
        · split at h
          · simp at h
          · simp at h
        · simp at h

theorem subStep_next {G : FxGraph} {firstId lastId curId : Nat} {st : BuildState}
    {curIter : Nat} {nxt : Nat} {st2 : BuildState}
    (h : subStep G firstId lastId curId st curIter = .next nxt st2) :
    curId ≠ lastId ∧ (G.node curId).users = [nxt] ∧ curIter + 1 ≤ 100 ∧
    st2.visited = st.visited ++ [curId] ∧
    (curId = firstId → ∃ l, phNames (G.node firstId) = Except.ok l ∧
      st2.placeholders = st.placeholders ++ l) ∧
    (curId ≠ firstId → st2.placeholders = st.placeholders ∧
      (G.node curId).target.isBinary = false) := by
  simp only [subStep] at h
  split at h
  · simp at h
  · rename_i st1 hbr
    split at h
    · simp at h
    · rename_i st2x hcs
      obtain ⟨hvis1, hfirst1, hnone1⟩ := branch_ok hbr
      obtain ⟨hph2, hvis2⟩ := copyStep_ok hcs
      split at h
      · simp at h
      · rename_i hla
        split at h
        · rename_i nxt0 husers
          split at h
          · simp at h
          · rename_i hlim
            injection h with h1 h2
            subst h1
            subst h2
            refine ⟨hla, husers, by omega, by rw [hvis2, hvis1], ?_, ?_⟩
            · intro hcf
              obtain ⟨l, hl, hph⟩ := hfirst1 hcf
              exact ⟨l, hl, by rw [hph2, hph]⟩
            · intro hne
              exact ⟨by rw [hph2, (hnone1 hne).1], (hnone1 hne).2⟩
        · simp at h

theorem subLoop_mono (G : FxGraph) (firstId lastId : Nat) :
    ∀ (fuel curId : Nat) (st : BuildState) (curIter : Nat) (r : Except SubErr BuildState),
      subLoop G firstId lastId fuel curId st curIter = some r →
      subLoop G firstId lastId (fuel + 1) curId st curIter = some r := by
  intro fuel
  induction fuel with
  | zero =>
    intro c st it r h
    rw [subLoop_zero] at h
    cases h
  | succ f ih =>
    intro c st it r h
    rw [subLoop_succ] at h
    rw [subLoop_succ]
    cases hstep : subStep G firstId lastId c st it with
    | halt r0 => rw [hstep] at h; exact h
    | next nxt st2 =>
      rw [hstep] at h
      exact ih nxt st2 (it + 1) r h

theorem subLoop_add_fuel (G : FxGraph) (firstId lastId : Nat) :
    ∀ (d fuel curId : Nat) (st : BuildState) (curIter : Nat) (r : Except SubErr BuildState),
      subLoop G firstId lastId fuel curId st curIter = some r →
      subLoop G firstId lastId (fuel + d) curId st curIter = some r := by
  intro d
  induction d with
  | zero => intro fuel c st it r h; exact h
  | succ d ihd =>
    intro fuel c st it r h
    exact subLoop_mono G firstId lastId (fuel + d) c st it r (ihd fuel c st it r h)

theorem subLoop_total (G : FxGraph) (firstId lastId : Nat) :
    ∀ (fuel curIter curId : Nat) (st : BuildState),
      101 ≤ curIter + fuel → 1 ≤ fuel →
      ∃ r, subLoop G firstId lastId fuel curId st curIter = some r := by
  intro fuel
  induction fuel with
  | zero => intro it c st h1 h2; omega
  | succ f ih =>
    intro it c st h1 _
    rw [subLoop_succ]
    cases hstep : subStep G firstId lastId c st it with
    | halt r => exact ⟨r, rfl⟩
    | next nxt st2 =>
      have hlim := (subStep_next hstep).2.2.1
      exact ih (it + 1) nxt st2 (by omega) (by omega)

/-- The master invariant of a successful walk: the visited suffix `t` is
a nonempty path that starts at the entry node, ends at `last_node` (which
appears only at the end), follows the sole-user relation, passed the
binary-target check at every non-first node, and grew the placeholder
list by one batch of first-node placeholders per visit of `first_node`. -/
theorem subLoop_ok_spec (G : FxGraph) (firstId lastId : Nat) :
    ∀ (fuel curId : Nat) (st : BuildState) (curIter : Nat) (u : BuildState),
      subLoop G firstId lastId fuel curId st curIter = some (.ok u) →
      ∃ t : List Nat, t ≠ [] ∧ u.visited = st.visited ++ t ∧ t.head? = some curId ∧
        t.getD (t.length - 1) 0 = lastId ∧
        (∀ i, i + 1 < t.length → t.getD i 0 ≠ lastId) ∧
        (∀ i, i + 1 < t.length → (G.node (t.getD i 0)).users = [t.getD (i + 1) 0]) ∧
        (∀ n ∈ t, n ≠ firstId → (G.node n).target.isBinary = false) ∧
        u.placeholders = st.placeholders ++
          (List.replicate (t.count firstId) (phNamesOr G firstId)).flatten ∧
        (firstId ∈ t → phNames (G.node firstId) = Except.ok (phNamesOr G firstId)) := by
  intro fuel
  induction fuel with
  | zero =>
    intro c st it u h
    rw [subLoop_zero] at h
    cases h
  | succ f ih =>
    intro c st it u h
    rw [subLoop_succ] at h
    cases hstep : subStep G firstId lastId c st it with
    | halt r =>
      rw [hstep] at h
      injection h with h
      subst h
      obtain ⟨hla, hvis, hfirst, hnone⟩ := subStep_halt_ok hstep
      refine ⟨[c], by simp, by simpa using hvis, rfl, by simpa using hla, ?_, ?_, ?_, ?_, ?_⟩
      · intro i hi; simp at hi
      · intro i hi; simp at hi
      · intro n hn hne
        simp only [List.mem_singleton] at hn
        subst hn
        exact (hnone hne).2
      · by_cases hcf : c = firstId
        · obtain ⟨l, hl, hph⟩ := hfirst hcf
          have hor : phNamesOr G firstId = l := by
            unfold phNamesOr
            rw [hl]
          subst hcf
          rw [hph, hor]
          simp
        · rw [(hnone hcf).1]
          have : ([c].count firstId) = 0 := by
            rw [List.count_eq_zero]
            simp only [List.mem_singleton]
            intro hcontra
            exact hcf hcontra.symm
          rw [this]
          simp
      · intro hmem
        simp only [List.mem_singleton] at hmem
        obtain ⟨l, hl, -⟩ := hfirst hmem.symm
        have hor : phNamesOr G firstId = l := by
          unfold phNamesOr
          rw [hl]
        rw [hor]
        exact hl
    | next nxt st2 =>
      rw [hstep] at h
      obtain ⟨hla, husers, hlim, hvis, hfirst, hnone⟩ := subStep_next hstep
      obtain ⟨t', ht'ne, ht'vis, ht'head, ht'last, ht'notl, ht'chain, ht'bin, ht'ph, ht'pn⟩ :=
        ih nxt st2 (it + 1) u h
      have ht'len : 0 < t'.length := List.length_pos.mpr ht'ne
      have ht'head0 : t'.getD 0 0 = nxt := by
        cases t' with
        | nil => cases ht'ne rfl
        | cons a r =>
          simp only [List.head?_cons, Option.some.injEq] at ht'head
          simpa using ht'head
      refine ⟨c :: t', by simp, ?_, rfl, ?_, ?_, ?_, ?_, ?_, ?_⟩
      · rw [ht'vis, hvis]
        simp
      · have hidx : (c :: t').length - 1 = (t'.length - 1) + 1 := by
          simp only [List.length_cons]
          omega
        rw [hidx, List.getD_cons_succ]
        exact ht'last
      · intro i hi
        cases i with
        | zero =>
          simp only [List.getD_cons_zero]
          exact hla
        | succ i =>
          rw [List.getD_cons_succ]
          exact ht'notl i (by simp only [List.length_cons] at hi; omega)
      · intro i hi
        cases i with
        | zero =>
          simp only [List.getD_cons_zero, List.getD_cons_succ]
          rw [husers, ht'head0]
        | succ i =>
          simp only [List.getD_cons_succ]
          exact ht'chain i (by simp only [List.length_cons] at hi; omega)
      · intro n hn hne
        rcases List.mem_cons.mp hn with rfl | hn2
        · exact (hnone hne).2
        · exact ht'bin n hn2 hne
      · by_cases hcf : c = firstId
        · obtain ⟨l, hl, hph⟩ := hfirst hcf
          have hor : phNamesOr G firstId = l := by
            unfold phNamesOr
            rw [hl]
          subst hcf
          rw [ht'ph, hph, List.count_cons_self, List.replicate_succ, List.flatten_cons, hor,
            List.append_assoc]
        · rw [ht'ph, (hnone hcf).1]
          have : (c :: t').count firstId = t'.count firstId := by
            rw [List.count_cons_of_ne]
            intro hcontra
            exact hcf hcontra.symm
          rw [this]
      · intro hmem
        rcases List.mem_cons.mp hmem with heq | hmem2
        · obtain ⟨l, hl, -⟩ := hfirst heq.symm
          have hor : phNamesOr G firstId = l := by
            unfold phNamesOr
            rw [hl]
          rw [hor]
          exact hl
        · exact ht'pn hmem2

/-- A deterministic-successor path shifted by the same offset from two
positions holding the same node stays equal. -/
theorem chain_shift {t : List Nat} (F : Nat → List Nat)
    (hch : ∀ i, i + 1 < t.length → F (t.getD i 0) = [t.getD (i + 1) 0]) :
    ∀ (d k j : Nat), t.getD k 0 = t.getD j 0 → k + d < t.length → j + d < t.length →
      t.getD (k + d) 0 = t.getD (j + d) 0 := by
  intro d
  induction d with
  | zero => intro k j h _ _; simpa using h
  | succ d ihd =>
    intro k j h hk hj
    have hkd : k + d < t.length := by omega
    have hjd : j + d < t.length := by omega
    have hEq : t.getD (k + d) 0 = t.getD (j + d) 0 := ihd k j h hkd hjd
    have e1 := hch (k + d) (by omega)
    have e2 := hch (j + d) (by omega)
    rw [hEq, e2] at e1
    have : t.getD (j + d + 1) 0 = t.getD (k + d + 1) 0 := by
      injection e1
    have harr1 : k + (d + 1) = k + d + 1 := by omega
    have harr2 : j + (d + 1) = j + d + 1 := by omega
    rw [harr1, harr2]
    exact this.symm

/-- A successful walk path cannot revisit its start: the path is
deterministic, so a revisit would make it periodic and place `last_node`
strictly before the end, where it is known not to occur. -/
theorem no_revisit {t : List Nat} {f la : Nat} (F : Nat → List Nat)
    (hch : ∀ i, i + 1 < t.length → F (t.getD i 0) = [t.getD (i + 1) 0])
    (hhead : t.getD 0 0 = f)
    (hlast : t.getD (t.length - 1) 0 = la)
    (hnotbefore : ∀ i, i + 1 < t.length → t.getD i 0 ≠ la) :
    ∀ p, 0 < p → p < t.length → t.getD p 0 ≠ f := by
  intro p hp hplen hcontra
  have hsame : t.getD 0 0 = t.getD p 0 := by rw [hhead, hcontra]
  have hshift := chain_shift F hch (t.length - 1 - p) 0 p hsame (by omega) (by omega)
  have hidx : p + (t.length - 1 - p) = t.length - 1 := by omega
  rw [hidx, hlast] at hshift
  have hzero : 0 + (t.length - 1 - p) = t.length - 1 - p := by omega
  rw [hzero] at hshift
  exact hnotbefore (t.length - 1 - p) (by omega) hshift

theorem count_eq_one {t : List Nat} {f : Nat} (htne : t ≠ []) (hhead : t.getD 0 0 = f)
    (hrest : ∀ p, 0 < p → p < t.length → t.getD p 0 ≠ f) : t.count f = 1 := by
  cases t with
  | nil => cases htne rfl
  | cons a t' =>
    simp only [List.getD_cons_zero] at hhead
    subst hhead
    rw [List.count_cons_self]
    have hzero : t'.count a = 0 := by
      rw [List.count_eq_zero]
      intro hmem
      obtain ⟨i, hget⟩ := List.mem_iff_get.mp hmem
      refine hrest (i.1 + 1) (by omega) (by simp only [List.length_cons]; omega) ?_
      rw [List.getD_cons_succ, List.getD_eq_getElem _ _ i.2]
      rw [List.get_eq_getElem] at hget
      exact hget
    rw [hzero]

theorem addPlaceholder_len (acc : List GenName × List GenName) (nid : Nat) :
    ((addPlaceholder acc nid).2).length = acc.2.length + 1 := by
  simp [addPlaceholder]

theorem phArgsInner_len (xs : List FxAtom) :
    ∀ acc : List GenName × List GenName,
      ((phArgsInner xs acc).2).length = acc.2.length + (xs.map atomNodeCount).sum := by
  induction xs with
  | nil => intro acc; simp [phArgsInner]
  | cons a rest ih =>
    intro acc
    cases a with
    | node nid =>
      simp only [phArgsInner]
      rw [ih (addPlaceholder acc nid), addPlaceholder_len]
      simp [atomNodeCount]
      omega
    | param pid =>
      simp only [phArgsInner]
      rw [ih acc]
      simp [atomNodeCount]
    | numF =>
      simp only [phArgsInner]
      rw [ih acc]
      simp [atomNodeCount]
    | numI =>
      simp only [phArgsInner]
      rw [ih acc]
      simp [atomNodeCount]
    | dtypeLit =>
      simp only [phArgsInner]
      rw [ih acc]
      simp [atomNodeCount]
    | other oid =>
      simp only [phArgsInner]
      rw [ih acc]
      simp [atomNodeCount]

theorem phArgs_len (as : List FxArg) :
    ∀ acc : List GenName × List GenName,
      ((phArgs as acc).2).length = acc.2.length + (as.map argNodeOcc).sum := by
  induction as with
  | nil => intro acc; simp [phArgs]
  | cons a rest ih =>
    intro acc
    cases a with
    | atom at0 =>
      cases at0 with
      | node nid =>
        simp only [phArgs]
        rw [ih (addPlaceholder acc nid), addPlaceholder_len]
        simp [argNodeOcc, atomNodeCount]
        omega
      | param pid =>
        simp only [phArgs]
        rw [ih acc]
        simp [argNodeOcc, atomNodeCount]
      | numF =>
        simp only [phArgs]
        rw [ih acc]
        simp [argNodeOcc, atomNodeCount]
      | numI =>
        simp only [phArgs]
        rw [ih acc]
        simp [argNodeOcc, atomNodeCount]
      | dtypeLit =>
        simp only [phArgs]
        rw [ih acc]
        simp [argNodeOcc, atomNodeCount]
      | other oid =>
        simp only [phArgs]
        rw [ih acc]
        simp [argNodeOcc, atomNodeCount]
    | listArg xs =>
      simp only [phArgs]
      rw [ih (phArgsInner xs acc), phArgsInner_len]
      simp [argNodeOcc]
      omega

theorem phKwargInner_len (xs : List FxAtom) :
    ∀ acc acc2 : List GenName × List GenName, phKwargInner xs acc = .ok acc2 →
      acc2.2.length = acc.2.length + (xs.map atomNodeCount).sum := by
  induction xs with
  | nil =>
    intro acc acc2 h
    simp only [phKwargInner] at h
    injection h with h
    rw [← h]
    simp
  | cons a rest ih =>
    intro acc acc2 h
    cases a with
    | node nid =>
      simp only [phKwargInner] at h
      have := ih (addPlaceholder acc nid) acc2 h
      rw [this, addPlaceholder_len]
      simp [atomNodeCount]
      omega
    | param pid => simp only [phKwargInner] at h; cases h
    | numF => simp only [phKwargInner] at h; cases h
    | numI => simp only [phKwargInner] at h; cases h
    | dtypeLit => simp only [phKwargInner] at h; cases h
    | other oid => simp only [phKwargInner] at h; cases h

theorem phKwargs_len (kws : List (Nat × FxArg)) :
    ∀ acc acc2 : List GenName × List GenName, phKwargs kws acc = .ok acc2 →
      acc2.2.length = acc.2.length + (kws.map (fun kw => argNodeOcc kw.2)).sum := by
  induction kws with
  | nil =>
    intro acc acc2 h
    simp only [phKwargs] at h
    injection h with h
    rw [← h]
    simp
  | cons kw rest ih =>
    intro acc acc2 h
    obtain ⟨nm, arg⟩ := kw
    cases arg with
    | atom at0 =>
      cases at0 with
      | node nid =>
        simp only [phKwargs] at h
        have := ih (addPlaceholder acc nid) acc2 h
        rw [this, addPlaceholder_len]
        simp [argNodeOcc, atomNodeCount]
        omega
      | param pid =>
        simp only [phKwargs] at h
        have := ih acc acc2 h
        rw [this]
        simp [argNodeOcc, atomNodeCount]
      | numF =>
        simp only [phKwargs] at h
        have := ih acc acc2 h
        rw [this]
        simp [argNodeOcc, atomNodeCount]
      | numI =>
        simp only [phKwargs] at h
        have := ih acc acc2 h
        rw [this]
        simp [argNodeOcc, atomNodeCount]
      | dtypeLit =>
        simp only [phKwargs] at h
        have := ih acc acc2 h
        rw [this]
        simp [argNodeOcc, atomNodeCount]
      | other oid =>
        simp only [phKwargs] at h
        have := ih acc acc2 h
        rw [this]
        simp [argNodeOcc, atomNodeCount]
    | listArg xs =>
      simp only [phKwargs] at h
      cases hinner : phKwargInner xs acc with
      | ok accm =>
        rw [hinner] at h
        have h1 := phKwargInner_len xs acc accm hinner
        have h2 := ih accm acc2 h
        rw [h2, h1]
        simp [argNodeOcc]
        omega
      | error e =>
        rw [hinner] at h
        cases h

theorem phNames_len (n : FxNode) (l : List GenName) (h : phNames n = .ok l) :
    l.length = nodeArgOccurrences n := by
  unfold phNames at h
  cases hk : phKwargs n.kwargs (phArgs n.args ([], [])) with
  | ok acc =>
    rw [hk] at h
    injection h with h
    have h1 := phKwargs_len n.kwargs (phArgs n.args ([], [])) acc hk
    have h2 := phArgs_len n.args ([], [])
    rw [← h, h1, h2]
    simp [nodeArgOccurrences]
  | error e =>
    rw [hk] at h
    cases h

/-! ### Claim theorems about extraction -/

/-- C4 (counterexample): a first node whose two positional arguments are
the same source node gets two input placeholders (`x_0` and `x_1`), not
one: `_add_placeholder` generates a fresh name per occurrence instead of
collapsing duplicates, so the placeholder count is 2 while the number of
distinct Node-valued arguments is 1. -/
theorem c4_counterexample_duplicate_argument :
    create_submodule_from_subgraph gDupArg 0 0 =
      some (.ok { placeholders := [(5, 0), (5, 1)],
                  body := [(FxOp.call_function, Target.other 7)],
                  nameIdx := 0, visited := [0] }) ∧
    ([(5, 0), (5, 1)] : List GenName).length = 2 ∧
    distinctNodeArgsSpec (gDupArg.node 0) = 1 ∧ (2 : Nat) ≠ 1 := by
  refine ⟨by decide, by decide, by decide, by decide⟩

/-- C4 (amended, confirmed): for every host graph and first/last pair on
which `create_submodule_from_subgraph` succeeds, the number of input
placeholders of the returned unit equals the number of Node-valued
argument *occurrences* (positional and keyword, one nesting level
included) of the first node: duplicates of the same source node yield
separate placeholders with freshly generated names rather than collapsing
to one. -/
theorem c4_placeholders_count_occurrences (G : FxGraph) (firstId lastId : Nat)
    (u : BuildState)
    (h : create_submodule_from_subgraph G firstId lastId = some (.ok u)) :
    u.placeholders.length = nodeArgOccurrences (G.node firstId) := by
  obtain ⟨t, htne, hvis, hhead, hlast, hnotl, hchain, hbin, hph, hpn⟩ :=
    subLoop_ok_spec G firstId lastId 101 firstId initState 0 u h
  have hhead0 : t.getD 0 0 = firstId := by
    cases t with
    | nil => cases htne rfl
    | cons a r =>
      simp only [List.head?_cons, Option.some.injEq] at hhead
      simpa using hhead
  have hnorev : ∀ p, 0 < p → p < t.length → t.getD p 0 ≠ firstId :=
    no_revisit (fun n => (G.node n).users) hchain hhead0 hlast hnotl
  have hcount : t.count firstId = 1 := count_eq_one htne hhead0 hnorev
  have hmem : firstId ∈ t := by
    cases t with
    | nil => cases htne rfl
    | cons a r =>
      simp only [List.getD_cons_zero] at hhead0
      subst hhead0
      exact List.mem_cons_self _ _
  have hok := hpn hmem
  rw [hph, hcount]
  simp only [initState, List.nil_append, List.replicate_one, List.flatten_cons,
    List.flatten_nil, List.append_nil]
  exact phNames_len _ _ hok

/-- C4 witness: the amended count at the duplicate-argument example. -/
theorem c4_witness :
    ({ placeholders := [(5, 0), (5, 1)], body := [(FxOp.call_function, Target.other 7)],
       nameIdx := 0, visited := [0] } : BuildState).placeholders.length =
      nodeArgOccurrences (gDupArg.node 0) :=
  c4_placeholders_count_occurrences gDupArg 0 0
    { placeholders := [(5, 0), (5, 1)], body := [(FxOp.call_function, Target.other 7)],
      nameIdx := 0, visited := [0] } (by decide)

/-- C7 (confirmed): a successful extraction never passed a node other
than the first whose target is in `BINARY_FUNCTIONS` (the walk asserts
`cur_node_orig.target not in BINARY_FUNCTIONS` at every non-first node),
while a *first* node with a binary target is accepted; a two-node chain
whose second node is `torch.mul` fails with the binary-rejection
signal. -/
theorem c7_binary_rejected_after_first :
    (∀ (G : FxGraph) (firstId lastId : Nat) (u : BuildState),
      create_submodule_from_subgraph G firstId lastId = some (.ok u) →
      ∀ n ∈ u.visited, n ≠ firstId → (G.node n).target.isBinary = false) ∧
    create_submodule_from_subgraph gAddFirst 0 0 =
      some (.ok { placeholders := [(1, 0), (2, 0)],
                  body := [(FxOp.call_function, Target.torchAdd)],
                  nameIdx := 0, visited := [0] }) ∧
    Target.isBinary (gAddFirst.node 0).target = true ∧
    create_submodule_from_subgraph gBinSecond 0 1 = some (.error .binaryNotSupported) := by
  refine ⟨?_, by decide, by decide, by decide⟩
  intro G firstId lastId u h n hn hne
  obtain ⟨t, -, hvis, -, -, -, -, hbin, -, -⟩ :=
    subLoop_ok_spec G firstId lastId 101 firstId initState 0 u h
  simp only [initState, List.nil_append] at hvis
  rw [hvis] at hn
  exact hbin n hn hne

/-- C8 (confirmed): the walk always terminates.  With the model's fuel
set to 101 loop passes the result is always defined (the loop's own
`cur_iteration > 100` check fires first), additional fuel never changes
the result, and the malformed cyclic graph whose every node's sole user
is node 0 fails with the iteration-limit signal instead of looping. -/
theorem c8_bounded_termination :
    (∀ (G : FxGraph) (firstId lastId : Nat),
      (create_submodule_from_subgraph G firstId lastId).isSome = true) ∧
    (∀ (G : FxGraph) (firstId lastId d : Nat),
      subLoop G firstId lastId (101 + d) firstId initState 0 =
        create_submodule_from_subgraph G firstId lastId) ∧
    create_submodule_from_subgraph gSelfLoop 0 1 = some (.error .iterLimit) := by
  refine ⟨?_, ?_, by decide⟩
  · intro G f la
    obtain ⟨r, hr⟩ := subLoop_total G f la 101 0 f initState (by omega) (by omega)
    unfold create_submodule_from_subgraph
    rw [hr]
    rfl
  · intro G f la d
    unfold create_submodule_from_subgraph
    obtain ⟨r, hr⟩ := subLoop_total G f la 101 0 f initState (by omega) (by omega)
    rw [hr]
    exact subLoop_add_fuel G f la d 101 f initState 0 r hr

end NShadows
